import Mathlib

/-!
Formal model of the medRxiv bot pipeline (`src/Collaborations/medRxiv-bot/medRxiv_Bot.py`):
the processed-titles ledger (`load_titles` / `save_title`), the paper pipeline
(`process_paper`), the streaming id extraction (`create_hypothesis`), the paginated
fetch (`fetch_medrxiv`), the h-index ranker (`rank_valid_papers_by_hindex`) and the
markdown abstract structurer (`format_abstract_paragraphs`, `format_results_paragraph`).

Modelling conventions:
* Python strings are `List Char`; Python's regex class `\s` and `str.strip` are
  modelled on their ASCII behaviour (space, tab, `\n`, `\r`, `\x0b`, `\x0c`), and
  case-insensitive matching uses ASCII case folding, which coincides with Python on
  every ASCII pattern involved.
* External effects (HTTP requests, the LLM call) are passed in as oracle functions;
  quantifying a theorem over an oracle argument expresses that the code never
  performs the corresponding call on that path.
* The two unbounded `while` loops (`fetch_medrxiv`'s pagination loop and the
  sentence scan of `format_abstract_paragraphs`) are embedded with an explicit
  fuel parameter returning `Option`; `none` means the fuel ran out, and the
  termination theorems show how much fuel suffices.
-/

namespace MedrxivBot

/-- ASCII model of Python whitespace: the characters stripped by `str.strip()` and
matched by the regex class `\s` (restricted to ASCII). -/
def isPySpace (c : Char) : Bool :=
  c = ' ' || c = '\t' || c = '\n' || c = '\r' || c = '\x0b' || c = '\x0c'

/-- Python `str.strip()`: drop leading and trailing whitespace. -/
def pyStrip (s : List Char) : List Char :=
  ((s.dropWhile isPySpace).reverse.dropWhile isPySpace).reverse

/-- Python truthiness of an optional string: `None` and `""` are falsy. -/
def truthyStr : Option (List Char) → Bool
  | none => false
  | some s => !s.isEmpty

/-- The sentence-final punctuation characters of the splitting regexes. -/
def isPunct (c : Char) : Bool :=
  c = '.' || c = '?' || c = '!'

/-! ### Ledger storage (`load_titles` / `save_title`) -/

/-- `save_title`: append `title.strip() + "\n"` to the ledger file contents. -/
def save_title (file : List Char) (title : List Char) : List Char :=
  file ++ pyStrip title ++ ['\n']

/-- Universal-newline translation performed when Python reads a text file:
`\r\n` and lone `\r` both become `\n`. -/
def normNL : List Char → List Char
  | [] => []
  | c :: rest =>
    if c = '\r' then
      if rest.head? = some '\n' then normNL rest else '\n' :: normNL rest
    else c :: normNL rest

/-- Split translated text into lines at `\n`; a final line without a terminator is
kept, and empty trailing content yields no extra line (Python line iteration). -/
def splitLF : List Char → List Char → List (List Char)
  | [], acc => if acc.isEmpty then [] else [acc.reverse]
  | c :: rest, acc =>
    if c = '\n' then acc.reverse :: splitLF rest [] else splitLF rest (c :: acc)

/-- The lines of a text file as Python sees them (also the model of
`str.splitlines()` for the line breaks `\n`, `\r`, `\r\n`). -/
def pyLines (s : List Char) : List (List Char) :=
  splitLF (normNL s) []

/-- `load_titles`: read the ledger file and strip each line.  The Python code
builds a `set`; we keep the list, whose membership is the set membership. -/
def load_titles (file : List Char) : List (List Char) :=
  (pyLines file).map pyStrip

/-- The in-process ledger: the file contents on disk plus the
`processed_titles` in-memory set (as a list with set-like membership). -/
structure LedgerState where
  file : List Char
  mem : List (List Char)
deriving DecidableEq

/-- `record`: what a successful publish does in `process_paper` —
`save_title(title)` followed by `processed_titles.add(title)`. -/
def recordTitle (st : LedgerState) (title : List Char) : LedgerState :=
  { file := save_title st.file title, mem := title :: st.mem }

/-- `contains`: the membership test `title in processed_titles`. -/
def containsTitle (st : LedgerState) (title : List Char) : Prop :=
  title ∈ st.mem

instance (st : LedgerState) (t : List Char) : Decidable (containsTitle st t) := by
  unfold containsTitle; infer_instance

/-- The ledger file produced by a run history: `save_title` applied in order to
every recorded title, starting from an empty file. -/
def ledgerFile (titles : List (List Char)) : List Char :=
  titles.foldl save_title []

/-! ### Per-paper pipeline (`process_paper`) -/

/-- The per-paper pipeline states of the orchestration state machine. -/
inductive Outcome
  | Skipped
  | ProblemFailed
  | PublishFailed
  | Published
deriving DecidableEq

/-- `process_paper`, with the three external collaborators passed as values:
`extractP` is the result of `extract_problem`, `createH` the result of
`create_hypothesis`, and `editOk` the result of `edit_hypothesis` (consulted only
when the created id is truthy, matching the short-circuit `and`). -/
def process_paper (extractP createH : Option (List Char)) (editOk : Bool)
    (title : List Char) (st : LedgerState) : Outcome × LedgerState :=
  if title ∈ st.mem then (.Skipped, st)
  else if !truthyStr extractP then (.ProblemFailed, st)
  else if truthyStr createH && editOk then (.Published, recordTitle st title)
  else (.PublishFailed, st)

/-! ### Streaming id extraction (`create_hypothesis`) -/

/-- One regex match of the streamed response after `json.loads`:
`typ` is `data.get("data", {}).get("type")` and `hid` is
`data["data"]["content"]["hypothesis_id"]` when that lookup succeeds
(`hid = none` models the `KeyError` path, swallowed by `continue`). -/
structure StreamEvent where
  typ : Option (List Char)
  hid : Option (List Char)
deriving DecidableEq

/-- Processing of one regex match in `create_hypothesis`: a parse failure
(`none`) is skipped, and a metadata event carrying an id overwrites the
current `hypothesis_id`. -/
def applyMatch (hid : Option (List Char)) : Option StreamEvent → Option (List Char)
  | none => hid
  | some e =>
    if e.typ = some ("metadata".toList) then
      match e.hid with
      | none => hid
      | some h => some h
    else hid

/-- `create_hypothesis` at the level of the sequence of regex matches produced
over all chunks of the streamed response: fold `applyMatch` from `None`. -/
def create_hypothesis (ms : List (Option StreamEvent)) : Option (List Char) :=
  ms.foldl applyMatch none

/-! ### Paginated fetch (`fetch_medrxiv`) -/

/-- The pagination descriptor `messages[0]`.  Each field is `none` when the key
is absent; `some none` when present but not convertible by `int()`; and
`some (some n)` when `int()` yields `n`. -/
structure PageMsg where
  total : Option (Option Int)
  cursor : Option (Option Int)

/-- A decoded page body: the `collection` list and the `messages` list. -/
structure PageBody (α : Type) where
  collection : List α
  messages : List PageMsg

/-- One page request: `fail` covers a transport error, a non-2xx status or a
JSON decode failure (all of which `break` the loop); `ok` a decoded body. -/
inductive PageResult (α : Type)
  | fail
  | ok (body : PageBody α)

/-- The pagination loop of `fetch_medrxiv`: `server` maps the cursor in the
request URL to the page outcome, `acc` is `all_fetched_papers`.  Fueled; the
loop need not terminate against an adversarial server. -/
def fetch_medrxiv {α : Type} (server : Int → PageResult α) :
    Nat → Int → List α → Option (List α)
  | 0, _, _ => none
  | fuel + 1, cur, acc =>
    match server cur with
    | .fail => some acc
    | .ok body =>
      if body.collection.isEmpty then some acc
      else
        match body.messages with
        | [] => some (acc ++ body.collection)
        | m :: _ =>
          match m.total, m.cursor with
          | some t0, some c0 =>
            match t0, c0 with
            | some t, some c =>
              if t ≤ c + (body.collection.length : Int) then some (acc ++ body.collection)
              else fetch_medrxiv server fuel (c + (body.collection.length : Int))
                (acc ++ body.collection)
            | _, _ => some (acc ++ body.collection)
          | _, _ => some (acc ++ body.collection)

/-! ### Reputation ranker (`rank_valid_papers_by_hindex`) -/

/-- One entry of the Semantic Scholar `authors` list: its `authorId`, absent or
falsy when missing. -/
structure AuthorRef where
  authorId : Option (List Char)
deriving DecidableEq

/-- The fields of a fetched paper record that the ranker reads. -/
structure Paper where
  title : Option (List Char)
  doi : Option (List Char)
deriving DecidableEq

/-- A paper with the attached `max_h_index` value set by the ranker. -/
structure RankedPaper where
  paper : Paper
  maxH : Int
deriving DecidableEq

/-- The inner author loop of `rank_valid_papers_by_hindex`: walk the author list
in order, skip entries without a truthy `authorId` or without an h-index, and
stop at the first author whose h-index reaches the threshold. -/
def findQualifyingH (hOf : List Char → Option Int) (minH : Int) :
    List AuthorRef → Option Int
  | [] => none
  | a :: rest =>
    if truthyStr a.authorId then
      match hOf (a.authorId.getD []) with
      | some h => if minH ≤ h then some h else findQualifyingH hOf minH rest
      | none => findQualifyingH hOf minH rest
    else findQualifyingH hOf minH rest

/-- The paper loop of `rank_valid_papers_by_hindex` building `valid_papers`:
skip papers with a falsy title or doi or an already-processed title before any
lookup; drop papers whose author lookup fails or is empty; keep a paper with the
first qualifying h-index attached. -/
def validPapers (authorsOf : List Char → Option (List AuthorRef))
    (hOf : List Char → Option Int) (processed : List (List Char)) (minH : Int) :
    List Paper → List RankedPaper
  | [] => []
  | p :: rest =>
    if truthyStr p.title = false ∨ truthyStr p.doi = false ∨ p.title.getD [] ∈ processed then
      validPapers authorsOf hOf processed minH rest
    else
      match authorsOf (p.doi.getD []) with
      | none => validPapers authorsOf hOf processed minH rest
      | some authors =>
        if authors.isEmpty then validPapers authorsOf hOf processed minH rest
        else
          match findQualifyingH hOf minH authors with
          | some h => ⟨p, h⟩ :: validPapers authorsOf hOf processed minH rest
          | none => validPapers authorsOf hOf processed minH rest

/-- Stable descending insertion by `max_h_index`: an element passes every entry
with a strictly larger key and lands in front of the first entry whose key is
not larger, so equal keys keep their relative order. -/
def insertByH (x : RankedPaper) : List RankedPaper → List RankedPaper
  | [] => [x]
  | y :: ys => if x.maxH < y.maxH then y :: insertByH x ys else x :: y :: ys

/-- Model of Python's stable `list.sort(key=..., reverse=True)` on
`max_h_index`: a stable insertion sort into descending order. -/
def sortByHDesc : List RankedPaper → List RankedPaper
  | [] => []
  | x :: xs => insertByH x (sortByHDesc xs)

/-- `rank_valid_papers_by_hindex`: build `valid_papers`, sort descending by the
attached h-index (stable), and truncate to the first `maxPapers`. -/
def rank_valid_papers_by_hindex (authorsOf : List Char → Option (List AuthorRef))
    (hOf : List Char → Option Int) (processed : List (List Char))
    (papers : List Paper) (minH : Int) (maxPapers : Nat) : List RankedPaper :=
  (sortByHDesc (validPapers authorsOf hOf processed minH papers)).take maxPapers

/-! ### Results-block bullet formatter (`format_results_paragraph`) -/

/-- The fixed marker cycle of `format_results_paragraph`. -/
def emojis : List (List Char) :=
  ["- 📌", "- 🔹", "- ➤", "- ✅", "- 📝", "- 📉"].map (fun s => s.toList)

/-- The scanning state for the splitting regexes: not inside a separator, inside
a `\s+` run of the lookbehind alternative, or inside a `\n+` run. -/
inductive SkipMode
  | noSkip
  | wsSkip
  | nlSkip
deriving DecidableEq

/-- Character scan of `re.split(r'(?<=[.?!])(?:\s+|$)|\n+', text)`:
`prevP` records whether the previous character is sentence-final punctuation
(the lookbehind); after the whole input, a trailing empty piece is produced
when the `$` alternative matches there. -/
def splitBulletsAux : List Char → SkipMode → Bool → List Char → List (List Char)
  | [], _, prevP, acc => if prevP then [acc.reverse, []] else [acc.reverse]
  | c :: rest, mode, prevP, acc =>
    match mode with
    | .wsSkip =>
      if isPySpace c then splitBulletsAux rest .wsSkip false acc
      else splitBulletsAux rest .noSkip (isPunct c) (c :: acc)
    | .nlSkip =>
      if c = '\n' then splitBulletsAux rest .nlSkip false acc
      else splitBulletsAux rest .noSkip (isPunct c) (c :: acc)
    | .noSkip =>
      if prevP && isPySpace c then acc.reverse :: splitBulletsAux rest .wsSkip false []
      else if c = '\n' then acc.reverse :: splitBulletsAux rest .nlSkip false []
      else splitBulletsAux rest .noSkip (isPunct c) (c :: acc)

/-- The sentence split of `format_results_paragraph`. -/
def splitBullets (text : List Char) : List (List Char) :=
  splitBulletsAux text .noSkip false []

/-- The bullet loop of `format_results_paragraph`: every non-empty sentence at
pre-filter position `i` becomes `emojis[i % 6] + " " + sentence.strip()`. -/
def bulletLines : Nat → List (List Char) → List (List Char)
  | _, [] => []
  | i, s :: rest =>
    if s.isEmpty then bulletLines (i + 1) rest
    else (emojis.getD (i % 6) [] ++ ' ' :: pyStrip s) :: bulletLines (i + 1) rest

/-- `"\n".join(...)`. -/
def joinNL (lines : List (List Char)) : List Char :=
  List.intercalate ['\n'] lines

/-- `format_results_paragraph`: split into sentences, render bullets, join. -/
def format_results_paragraph (text : List Char) : List Char :=
  joinNL (bulletLines 0 (splitBullets text))

/-! ### Abstract structurer (`format_abstract_paragraphs`) -/

/-- Character scan of the sentence splitter `re.split(r'(?<=[.?!])\s+', text)`. -/
def splitSentencesAux : List Char → Bool → Bool → List Char → List (List Char)
  | [], _, _, acc => [acc.reverse]
  | c :: rest, skip, prevP, acc =>
    if skip then
      if isPySpace c then splitSentencesAux rest true false acc
      else splitSentencesAux rest false (isPunct c) (c :: acc)
    else if prevP && isPySpace c then acc.reverse :: splitSentencesAux rest true false []
    else splitSentencesAux rest false (isPunct c) (c :: acc)

/-- The sentence split of `format_abstract_paragraphs`. -/
def splitSentences (text : List Char) : List (List Char) :=
  splitSentencesAux text false false []

/-- The section label vocabulary, in the alternation order of the regex. -/
def sectionLabels : List (List Char) :=
  ["Background", "Outcomes of interest", "Objectives", "Objective",
   "Methods and Results", "Methods", "Results", "Conclusions", "Conclusion",
   "Findings"].map (fun s => s.toList)

/-- Case-insensitive (ASCII folding) literal match of a pattern at the start of
a string, returning the matched original-case text and the remainder. -/
def ciConsume : List Char → List Char → Option (List Char × List Char)
  | [], s => some ([], s)
  | _ :: _, [] => none
  | p :: ps, c :: cs =>
    if c.toLower = p.toLower then
      match ciConsume ps cs with
      | some (m, r) => some (c :: m, r)
      | none => none
    else none

/-- Group 1 of `re.match(r'^(<labels>)(:)?(\s*)...', sentence, re.IGNORECASE)`:
the first alternative (in vocabulary order) matching at the start, with the
remainder of the sentence after the label. -/
def labelMatch (s : List Char) : Option (List Char × List Char) :=
  sectionLabels.findSome? (fun pat => ciConsume pat s)

/-- Groups 1 and 4 of the section-label regex: after the label, consume an
optional colon and a greedy `\s*` run; group 4 is `(.*)`, which stops at a
newline. -/
def labelRest (s : List Char) : Option (List Char × List Char) :=
  match labelMatch s with
  | none => none
  | some (lab, rem) =>
    let rem1 := if rem.head? = some ':' then rem.drop 1 else rem
    some (lab, (rem1.dropWhile isPySpace).takeWhile (· != '\n'))

/-- `re.match(r'^(.*?:)(\s*)(.*)', sentence)`: a lazy prefix up to the first
colon on the first line (group 1, colon included), then `\s*`, then the rest of
the line (group 3). -/
def colonMatch (s : List Char) : Option (List Char × List Char) :=
  if ':' ∈ s.takeWhile (· != '\n') then
    some (s.takeWhile (· != ':') ++ [':'],
      (((s.dropWhile (· != ':')).drop 1).dropWhile isPySpace).takeWhile (· != '\n'))
  else none

/-- ASCII uppercase letters, the class `[A-Z]`. -/
def isUpperAZ (c : Char) : Bool :=
  'A' ≤ c && c ≤ 'Z'

/-- `re.match(r'^([A-Z]{2,})(\s+)(.*)', sentence)`: a leading run of at least
two uppercase letters followed by whitespace, then the rest of the line. -/
def capsMatch (s : List Char) : Option (List Char × List Char) :=
  let caps := s.takeWhile isUpperAZ
  let rest0 := s.dropWhile isUpperAZ
  if 2 ≤ caps.length && (match rest0.head? with | some c => isPySpace c | none => false) then
    some (caps, (rest0.dropWhile isPySpace).takeWhile (· != '\n'))
  else none

/-- A body-text line is emitted only when non-empty (`if rest:`). -/
def optLine (r : List Char) : List (List Char) :=
  if r.isEmpty then [] else [r]

/-- The non-label branches of the scan loop: a colon-headed phrase, an all-caps
lead-in, or the sentence verbatim. -/
def plainLines (s : List Char) : List (List Char) :=
  match colonMatch s with
  | some (g1, g3) => ("**".toList ++ g1 ++ "**".toList) :: optLine (pyStrip g3)
  | none =>
    match capsMatch s with
    | some (g1, g3) => ("**".toList ++ g1 ++ "**".toList) :: optLine (pyStrip g3)
    | none => [s]

/-- The inner `while` of the Results branch: starting at index `i`, collect
sentences until the next section-label match (or the end), returning the block
and the index where the scan resumes.  Fueled like the outer loop. -/
def collectResults (sents : List (List Char)) : Nat → Nat → List (List Char) × Nat
  | 0, i => ([], i)
  | fuel + 1, i =>
    if i < sents.length then
      let next := sents.getD i []
      if (labelMatch next).isSome then ([], i)
      else
        let r := collectResults sents fuel (i + 1)
        (next :: r.1, r.2)
    else ([], i)

/-- The outer `while i < n` scan loop of `format_abstract_paragraphs` over the
sentence list, producing the emitted lines.  Fueled: `none` means the fuel ran
out before the index reached the end. -/
def formatLoop (sents : List (List Char)) : Nat → Nat → Option (List (List Char))
  | 0, i => if i < sents.length then none else some []
  | fuel + 1, i =>
    if i < sents.length then
      let s := sents.getD i []
      match labelRest s with
      | some (lab, g4) =>
        let bolded := "**".toList ++ lab ++ ":**".toList
        let rest := pyStrip g4
        if lab.map Char.toLower = "results".toList then
          let c := collectResults sents fuel (i + 1)
          (formatLoop sents fuel c.2).map (fun tail =>
            [[], bolded, []] ++
              pyLines (format_results_paragraph
                (List.intercalate [' '] ((if rest.isEmpty then [] else [rest]) ++ c.1))) ++
              tail)
        else
          (formatLoop sents fuel (i + 1)).map (fun tail =>
            [[], bolded, []] ++ optLine rest ++ tail)
      | none =>
        (formatLoop sents fuel (i + 1)).map (fun tail => plainLines s ++ tail)
    else some []

/-- The emitted lines of `format_abstract_paragraphs`, with fuel equal to the
number of sentences (shown sufficient by the termination theorem). -/
def format_abstract_lines (text : List Char) : List (List Char) :=
  (formatLoop (splitSentences text) (splitSentences text).length 0).getD []

/-- `format_abstract_paragraphs`: the emitted lines joined with newlines. -/
def format_abstract_paragraphs (text : List Char) : List Char :=
  joinNL (format_abstract_lines text)

/-! ## Helper lemmas -/

theorem head?_dropWhile_not {p : Char → Bool} :
    ∀ (l : List Char) (c : Char), (l.dropWhile p).head? = some c → p c = false := by
  intro l
  induction l with
  | nil => intro c h; simp [List.dropWhile] at h
  | cons a l ih =>
    intro c h
    by_cases hp : p a
    · rw [List.dropWhile_cons_of_pos hp] at h
      exact ih c h
    · rw [List.dropWhile_cons_of_neg hp] at h
      simp only [List.head?_cons, Option.some.injEq] at h
      subst h
      simpa using hp

theorem pyStrip_getLast?_not_space (t : List Char) (c : Char)
    (h : (pyStrip t).getLast? = some c) : isPySpace c = false := by
  unfold pyStrip at h
  rw [List.getLast?_reverse] at h
  exact head?_dropWhile_not _ c h

theorem normNL_cons (c : Char) (L : List Char) :
    normNL (c :: L) =
      if c = '\r' then (if L.head? = some '\n' then normNL L else '\n' :: normNL L)
      else c :: normNL L := rfl

theorem splitLF_cons (c : Char) (rest acc : List Char) :
    splitLF (c :: rest) acc =
      if c = '\n' then acc.reverse :: splitLF rest [] else splitLF rest (c :: acc) := rfl

theorem normNL_append : ∀ (A B : List Char), (A = [] ∨ A.getLast? ≠ some '\r') →
    normNL (A ++ B) = normNL A ++ normNL B := by
  intro A
  induction A with
  | nil => intro B _; simp [normNL]
  | cons c A ih =>
    intro B hA
    rcases A with _ | ⟨d, A⟩
    · have hc : c ≠ '\r' := by
        rcases hA with h | h
        · simp at h
        · simpa using h
      simp only [List.cons_append, List.nil_append]
      rw [normNL_cons, if_neg hc, normNL_cons, if_neg hc]
      simp [normNL]
    · have hA2 : (d :: A) = [] ∨ (d :: A).getLast? ≠ some '\r' := by
        right
        rcases hA with h | h
        · simp at h
        · simpa [List.getLast?_cons_cons] using h
      have ih2 := ih B hA2
      simp only [List.cons_append] at ih2 ⊢
      rw [normNL_cons c (d :: (A ++ B)), normNL_cons c (d :: A), List.head?_cons,
        List.head?_cons, ih2]
      by_cases hc : c = '\r'
      · by_cases hd : d = '\n'
        · simp [hc, hd]
        · simp [hc, hd]
      · simp [hc]

theorem normNL_clean : ∀ (x B : List Char), (∀ c ∈ x, c ≠ '\r') →
    normNL (x ++ B) = x ++ normNL B := by
  intro x
  induction x with
  | nil => intro B _; simp
  | cons c x ih =>
    intro B hx
    have hc : c ≠ '\r' := hx c (List.mem_cons_self c x)
    simp only [List.cons_append]
    rw [normNL_cons, if_neg hc, ih B (fun d hd => hx d (List.mem_cons_of_mem c hd))]

theorem splitLF_append : ∀ (A B acc : List Char), A.getLast? = some '\n' →
    splitLF (A ++ B) acc = splitLF A acc ++ splitLF B [] := by
  intro A
  induction A with
  | nil => intro B acc h; simp at h
  | cons c A ih =>
    intro B acc hA
    rcases A with _ | ⟨d, A⟩
    · simp only [List.getLast?_singleton, Option.some.injEq] at hA
      subst hA
      simp only [List.cons_append, List.nil_append]
      rw [splitLF_cons, if_pos rfl, splitLF_cons, if_pos rfl]
      simp [splitLF]
    · have hA2 : (d :: A).getLast? = some '\n' := by
        simpa [List.getLast?_cons_cons] using hA
      simp only [List.cons_append]
      rw [splitLF_cons c (d :: (A ++ B)) acc, splitLF_cons c (d :: A) acc]
      by_cases hc : c = '\n'
      · rw [if_pos hc, if_pos hc]
        have hih := ih B [] hA2
        simp only [List.cons_append] at hih
        rw [hih]
        simp
      · rw [if_neg hc, if_neg hc]
        have hih := ih B (c :: acc) hA2
        simp only [List.cons_append] at hih
        exact hih

theorem splitLF_clean : ∀ (x B acc : List Char), (∀ c ∈ x, c ≠ '\n') →
    splitLF (x ++ '\n' :: B) acc = (acc.reverse ++ x) :: splitLF B [] := by
  intro x
  induction x with
  | nil => intro B acc _; simp [splitLF]
  | cons c x ih =>
    intro B acc hx
    have hc : c ≠ '\n' := hx c (List.mem_cons_self c x)
    simp only [List.cons_append]
    rw [splitLF_cons, if_neg hc, ih B (c :: acc) (fun d hd => hx d (List.mem_cons_of_mem c hd))]
    simp

theorem foldl_save_title_shift : ∀ (ts : List (List Char)) (F : List Char),
    ts.foldl save_title F = F ++ ts.foldl save_title [] := by
  intro ts
  induction ts with
  | nil => intro F; simp
  | cons t ts ih =>
    intro F
    rw [List.foldl_cons, List.foldl_cons, ih (save_title F t), ih (save_title [] t)]
    simp [save_title]

theorem ledgerFile_cons (t : List Char) (ts : List (List Char)) :
    ledgerFile (t :: ts) = (pyStrip t ++ ['\n']) ++ ledgerFile ts := by
  unfold ledgerFile
  rw [List.foldl_cons, foldl_save_title_shift]
  simp [save_title]

theorem ledgerFile_append (ts us : List (List Char)) :
    ledgerFile (ts ++ us) = ledgerFile ts ++ ledgerFile us := by
  unfold ledgerFile
  rw [List.foldl_append, foldl_save_title_shift]

theorem mem_load_titles_of_clean : ∀ (pre : List (List Char)) (x R : List Char),
    pyStrip x = x → (∀ c ∈ x, c ≠ '\n') → (∀ c ∈ x, c ≠ '\r') →
    x ∈ load_titles (ledgerFile pre ++ (x ++ '\n' :: R)) := by
  intro pre
  induction pre with
  | nil =>
    intro x R hstrip hn hr
    have h1 : normNL (x ++ '\n' :: R) = x ++ '\n' :: normNL R := by
      rw [normNL_clean x ('\n' :: R) hr]
      simp [normNL]
    show x ∈ load_titles (ledgerFile [] ++ (x ++ '\n' :: R))
    simp only [ledgerFile, List.foldl_nil, List.nil_append]
    unfold load_titles pyLines
    rw [h1, splitLF_clean x (normNL R) [] hn]
    simp only [List.reverse_nil, List.nil_append, List.map_cons]
    rw [hstrip]
    exact List.mem_cons_self _ _
  | cons t pre ih =>
    intro x R hstrip hn hr
    rw [ledgerFile_cons, List.append_assoc]
    have hlast : pyStrip t = [] ∨ (pyStrip t).getLast? ≠ some '\r' := by
      right
      intro hc
      have hsp : isPySpace '\r' = false := pyStrip_getLast?_not_space t '\r' hc
      simp [isPySpace] at hsp
    have hA : normNL (pyStrip t ++ ['\n']) = normNL (pyStrip t) ++ ['\n'] := by
      rw [normNL_append (pyStrip t) ['\n'] hlast]
      rfl
    have hsplit : normNL ((pyStrip t ++ ['\n']) ++ (ledgerFile pre ++ (x ++ '\n' :: R))) =
        (normNL (pyStrip t) ++ ['\n']) ++ normNL (ledgerFile pre ++ (x ++ '\n' :: R)) := by
      rw [normNL_append (pyStrip t ++ ['\n']) _ (Or.inr (by rw [List.getLast?_concat]; simp)), hA]
    unfold load_titles pyLines
    rw [hsplit, splitLF_append (normNL (pyStrip t) ++ ['\n']) _ []
      (by rw [List.getLast?_concat])]
    rw [List.map_append]
    exact List.mem_append_right _ (ih x R hstrip hn hr)

/-! ## Claim theorems -/

/-- C1 counterexample: recording the identifier `" A"` (leading space) on an
empty ledger writes the stripped form `"A"` to the file, so a subsequent process
instance that reloads the storage via `load_titles` does not contain `" A"` —
the claim fails for identifiers that are not equal to their own strip. -/
theorem ledger_persistence_counterexample :
    ¬ ((" A".toList) ∈ load_titles ((recordTitle ⟨[], []⟩ (" A".toList)).file)) := by
  decide

/-- C1 (amended): for every identifier `x` that equals its own strip and
contains no line-break character, after `record(x)` the membership test
`contains(x)` is true in the same process instance, and `x` is found by
`load_titles` in any ledger file whose history contains `x`, whatever was
recorded before or after it. -/
theorem ledger_persistence (st : LedgerState) (pre post : List (List Char)) (x : List Char)
    (hstrip : pyStrip x = x) (hn : '\n' ∉ x) (hr : '\r' ∉ x) :
    containsTitle (recordTitle st x) x ∧ x ∈ load_titles (ledgerFile (pre ++ x :: post)) := by
  constructor
  · exact List.mem_cons_self _ _
  · have hx : ledgerFile (pre ++ x :: post) = ledgerFile pre ++ (x ++ '\n' :: ledgerFile post) := by
      rw [ledgerFile_append, ledgerFile_cons, hstrip]
      simp
    rw [hx]
    exact mem_load_titles_of_clean pre x (ledgerFile post) hstrip
      (fun c hc hceq => hn (hceq ▸ hc)) (fun c hc hceq => hr (hceq ▸ hc))

/-- C1 witness: a concrete run of the amended theorem. -/
theorem ledger_persistence_witness :
    containsTitle (recordTitle ⟨[], []⟩ ("T1".toList)) ("T1".toList) ∧
      ("T1".toList) ∈ load_titles (ledgerFile ([("P0".toList)] ++ ("T1".toList) :: [("Q0".toList)])) :=
  ledger_persistence ⟨[], []⟩ [("P0".toList)] [("Q0".toList)] ("T1".toList)
    (by decide) (by decide) (by decide)

theorem foldl_applyMatch_const : ∀ (ms : List (Option StreamEvent)) (a : Option (List Char)),
    (∀ m ∈ ms, ∀ acc, applyMatch acc m = acc) → ms.foldl applyMatch a = a := by
  intro ms
  induction ms with
  | nil => intro a _; rfl
  | cons m ms ih =>
    intro a hms
    rw [List.foldl_cons, hms m (List.mem_cons_self m ms) a]
    exact ih a (fun m2 hm2 => hms m2 (List.mem_cons_of_mem m hm2))

/-- C9 counterexample: a stream carrying two metadata events with ids `"A"`
then `"B"` makes `create_hypothesis` return `"B"` — the id of the last
metadata event, so the claim that the first metadata id is returned is false. -/
theorem streaming_id_counterexample :
    create_hypothesis [some ⟨some ("metadata".toList), some ("A".toList)⟩,
        some ⟨some ("metadata".toList), some ("B".toList)⟩] = some ("B".toList) ∧
      some ("B".toList) ≠ some ("A".toList) := by
  decide

/-- C9 (amended): `create_hypothesis` returns the hypothesis_id carried by the
last metadata event of the stream that carries one — each well-parsed metadata
event with an id overwrites the previously extracted id. -/
theorem streaming_id_last (pre : List (Option StreamEvent)) (e : StreamEvent)
    (h : List Char) (post : List (Option StreamEvent))
    (htyp : e.typ = some ("metadata".toList)) (hid : e.hid = some h)
    (hpost : ∀ m ∈ post, ∀ acc, applyMatch acc m = acc) :
    create_hypothesis (pre ++ some e :: post) = some h := by
  unfold create_hypothesis
  rw [List.foldl_append, List.foldl_cons]
  have he : applyMatch (List.foldl applyMatch none pre) (some e) = some h := by
    simp [applyMatch, htyp, hid]
  rw [he]
  exact foldl_applyMatch_const post (some h) hpost

/-- C9 witness: a concrete application of the amended theorem. -/
theorem streaming_id_last_witness :
    create_hypothesis [some ⟨some ("metadata".toList), some ("A".toList)⟩,
        some ⟨some ("metadata".toList), some ("B".toList)⟩, none] = some ("B".toList) :=
  streaming_id_last [some ⟨some ("metadata".toList), some ("A".toList)⟩]
    ⟨some ("metadata".toList), some ("B".toList)⟩ ("B".toList) [none] rfl rfl
    (by
      intro m hm acc
      simp only [List.mem_singleton] at hm
      subst hm
      rfl)

/-- C6: if hypothesis creation yields no truthy id or the edit call fails, the
ledger state (file and in-memory set) is unchanged; and in every case either
the state is unchanged or both publish calls succeeded, the outcome is
`Published`, and the state is exactly the recorded one. -/
theorem publish_failure_atomicity (extractP createH : Option (List Char)) (editOk : Bool)
    (title : List Char) (st : LedgerState) :
    ((truthyStr createH = false ∨ editOk = false) →
      (process_paper extractP createH editOk title st).2 = st) ∧
    ((process_paper extractP createH editOk title st).2 = st ∨
      (truthyStr createH = true ∧ editOk = true ∧
        process_paper extractP createH editOk title st = (.Published, recordTitle st title))) := by
  constructor
  · intro hfail
    unfold process_paper
    split_ifs with h1 h2 h3
    · rfl
    · rfl
    · rcases hfail with h | h <;> simp [h] at h3
    · rfl
  · unfold process_paper
    split_ifs with h1 h2 h3
    · left; rfl
    · left; rfl
    · right
      simp only [Bool.and_eq_true] at h3
      exact ⟨h3.1, h3.2, rfl⟩
    · left; rfl

/-- C6 witness: with no created id the ledger state is untouched. -/
theorem publish_failure_atomicity_witness :
    (process_paper (some ("p".toList)) none true ("t".toList) ⟨[], []⟩).2 =
      (⟨[], []⟩ : LedgerState) :=
  (publish_failure_atomicity (some ("p".toList)) none true ("t".toList) ⟨[], []⟩).1 (Or.inl rfl)

/-- C7: if a first `process_paper` run on a title reaches `Published`, a second
sequential run on the same title — with arbitrary results for the problem
extraction, create and edit collaborators, hence without depending on any
outbound call — yields `Skipped` and leaves the ledger state unchanged. -/
theorem pipeline_idempotence (e c : Option (List Char)) (ed : Bool) (title : List Char)
    (st : LedgerState) (h : (process_paper e c ed title st).1 = .Published)
    (e2 c2 : Option (List Char)) (ed2 : Bool) :
    process_paper e2 c2 ed2 title (process_paper e c ed title st).2 =
      (.Skipped, (process_paper e c ed title st).2) := by
  by_cases h1 : title ∈ st.mem
  · simp [process_paper, h1] at h
  · by_cases h2 : truthyStr e
    · by_cases h3 : (truthyStr c && ed) = true
      · simp only [process_paper, if_neg h1, h2, Bool.not_true, Bool.false_eq_true, if_false,
          h3, if_true]
        simp [process_paper, recordTitle, List.mem_cons]
      · simp [process_paper, h1, h2, h3] at h
    · simp [process_paper, h1, h2] at h

/-- C7 witness: a concrete published-then-reprocessed run. -/
theorem pipeline_idempotence_witness :
    process_paper none none false ("t".toList)
        (process_paper (some ("p".toList)) (some ("h".toList)) true ("t".toList) ⟨[], []⟩).2 =
      (.Skipped,
        (process_paper (some ("p".toList)) (some ("h".toList)) true ("t".toList) ⟨[], []⟩).2) :=
  pipeline_idempotence (some ("p".toList)) (some ("h".toList)) true ("t".toList) ⟨[], []⟩
    (by decide) none none false

theorem fetch_prefix {α : Type} (server : Int → PageResult α) :
    ∀ (f : Nat) (cur : Int) (acc r : List α),
      fetch_medrxiv server f cur acc = some r → ∃ tail, r = acc ++ tail := by
  intro f
  induction f with
  | zero =>
    intro cur acc r h
    simp [fetch_medrxiv] at h
  | succ f ih =>
    intro cur acc r h
    simp only [fetch_medrxiv] at h
    repeat' split at h
    all_goals first
      | (obtain ⟨tail, ht⟩ := ih _ _ _ h
         exact ⟨_, ht.trans (List.append_assoc _ _ _)⟩)
      | (simp only [Option.some.injEq] at h
         subst h
         first
           | exact ⟨_, rfl⟩
           | exact ⟨[], (List.append_nil _).symm⟩)

/-- C3: the pagination loop of `fetch_medrxiv` stops exactly on a transport or
decode failure (returning the records accumulated so far), on a page with zero
records, on a missing pagination descriptor, on a missing or non-integer
`total`/`cursor` field, or once `cursor + recordsInThisPage ≥ total` — in all
records-bearing stop cases returning the accumulation extended in order by the
page — and otherwise issues the next request at `cursor + recordsInThisPage`
with the page appended in order; every successful result extends the incoming
accumulation on the right. -/
theorem fetch_pagination {α : Type} (server : Int → PageResult α) (fuel : Nat) (cur : Int)
    (acc : List α) :
    (server cur = .fail → fetch_medrxiv server (fuel + 1) cur acc = some acc) ∧
    (∀ body, server cur = .ok body → body.collection = [] →
      fetch_medrxiv server (fuel + 1) cur acc = some acc) ∧
    (∀ body, server cur = .ok body → body.collection ≠ [] → body.messages = [] →
      fetch_medrxiv server (fuel + 1) cur acc = some (acc ++ body.collection)) ∧
    (∀ body m ms, server cur = .ok body → body.collection ≠ [] → body.messages = m :: ms →
      m.total = none ∨ m.cursor = none →
      fetch_medrxiv server (fuel + 1) cur acc = some (acc ++ body.collection)) ∧
    (∀ body m ms, server cur = .ok body → body.collection ≠ [] → body.messages = m :: ms →
      m.total = some none ∨ m.cursor = some none →
      fetch_medrxiv server (fuel + 1) cur acc = some (acc ++ body.collection)) ∧
    (∀ body m ms t c, server cur = .ok body → body.collection ≠ [] →
      body.messages = m :: ms → m.total = some (some t) → m.cursor = some (some c) →
      t ≤ c + (body.collection.length : Int) →
      fetch_medrxiv server (fuel + 1) cur acc = some (acc ++ body.collection)) ∧
    (∀ body m ms t c, server cur = .ok body → body.collection ≠ [] →
      body.messages = m :: ms → m.total = some (some t) → m.cursor = some (some c) →
      c + (body.collection.length : Int) < t →
      fetch_medrxiv server (fuel + 1) cur acc =
        fetch_medrxiv server fuel (c + (body.collection.length : Int))
          (acc ++ body.collection)) ∧
    (∀ (f : Nat) (cur2 : Int) (acc2 r : List α),
      fetch_medrxiv server f cur2 acc2 = some r → ∃ tail, r = acc2 ++ tail) := by
  refine ⟨?_, ?_, ?_, ?_, ?_, ?_, ?_, fetch_prefix server⟩
  · intro hs
    simp [fetch_medrxiv, hs]
  · intro body hs hcoll
    simp [fetch_medrxiv, hs, hcoll]
  · intro body hs hcoll hmsg
    simp [fetch_medrxiv, hs, hmsg, List.isEmpty_iff, hcoll]
  · intro body m ms hs hcoll hmsg hfield
    rcases hfield with h | h
    · simp [fetch_medrxiv, hs, hmsg, h, List.isEmpty_iff, hcoll]
    · rcases ht : m.total with _ | t0 <;>
        simp [fetch_medrxiv, hs, hmsg, h, ht, List.isEmpty_iff, hcoll]
  · intro body m ms hs hcoll hmsg hfield
    rcases hfield with h | h
    · rcases hc : m.cursor with _ | c0 <;>
        simp [fetch_medrxiv, hs, hmsg, h, hc, List.isEmpty_iff, hcoll]
    · rcases ht : m.total with _ | t0
      · simp [fetch_medrxiv, hs, hmsg, h, ht, List.isEmpty_iff, hcoll]
      · rcases t0 with _ | t <;>
          simp [fetch_medrxiv, hs, hmsg, h, ht, List.isEmpty_iff, hcoll]
  · intro body m ms t c hs hcoll hmsg ht hc hstop
    simp [fetch_medrxiv, hs, hmsg, ht, hc, List.isEmpty_iff, hcoll, hstop]
  · intro body m ms t c hs hcoll hmsg ht hc hgo
    simp [fetch_medrxiv, hs, hmsg, ht, hc, List.isEmpty_iff, hcoll, not_le_of_lt hgo]

/-- C3 witness: a transport failure on the first page returns the (empty)
accumulation. -/
theorem fetch_pagination_witness :
    fetch_medrxiv (fun _ => (PageResult.fail : PageResult Nat)) 1 0 [] = some [] :=
  (fetch_pagination (fun _ => (PageResult.fail : PageResult Nat)) 0 0 []).1 rfl

theorem minH_le_of_findQualifyingH (hOf : List Char → Option Int) (minH : Int) :
    ∀ (authors : List AuthorRef) (h : Int),
      findQualifyingH hOf minH authors = some h → minH ≤ h := by
  intro authors
  induction authors with
  | nil => intro h hfind; simp [findQualifyingH] at hfind
  | cons a rest ih =>
    intro h hfind
    unfold findQualifyingH at hfind
    split_ifs at hfind with h1
    · rcases hh : hOf (a.authorId.getD []) with _ | v
      · simp only [hh] at hfind
        exact ih h hfind
      · simp only [hh] at hfind
        split_ifs at hfind with h2
        · simp only [Option.some.injEq] at hfind
          exact hfind ▸ h2
        · exact ih h hfind
    · exact ih h hfind

theorem validPapers_score_ge (authorsOf : List Char → Option (List AuthorRef))
    (hOf : List Char → Option Int) (processed : List (List Char)) (minH : Int) :
    ∀ (papers : List Paper) (rp : RankedPaper),
      rp ∈ validPapers authorsOf hOf processed minH papers → minH ≤ rp.maxH := by
  intro papers
  induction papers with
  | nil => intro rp hrp; simp [validPapers] at hrp
  | cons p rest ih =>
    intro rp hrp
    unfold validPapers at hrp
    split_ifs at hrp with h1
    · exact ih rp hrp
    · rcases ha : authorsOf (p.doi.getD []) with _ | authors
      · simp only [ha] at hrp
        exact ih rp hrp
      · simp only [ha] at hrp
        split_ifs at hrp with h2
        · exact ih rp hrp
        · rcases hf : findQualifyingH hOf minH authors with _ | v
          · simp only [hf] at hrp
            exact ih rp hrp
          · simp only [hf] at hrp
            rcases List.mem_cons.mp hrp with h | h
            · rw [h]
              exact minH_le_of_findQualifyingH hOf minH authors v hf
            · exact ih rp h

theorem validPapers_map_sublist (authorsOf : List Char → Option (List AuthorRef))
    (hOf : List Char → Option Int) (processed : List (List Char)) (minH : Int) :
    ∀ (papers : List Paper),
      List.Sublist ((validPapers authorsOf hOf processed minH papers).map RankedPaper.paper)
        papers := by
  intro papers
  induction papers with
  | nil => simp [validPapers]
  | cons p rest ih =>
    unfold validPapers
    split_ifs with h1
    · exact ih.cons p
    · rcases ha : authorsOf (p.doi.getD []) with _ | authors
      · simp only [ha]
        exact ih.cons p
      · simp only [ha]
        split_ifs with h2
        · exact ih.cons p
        · rcases hf : findQualifyingH hOf minH authors with _ | v
          · simp only [hf]
            exact ih.cons p
          · simp only [hf, List.map_cons]
            exact ih.cons₂ p

theorem mem_insertByH : ∀ (l : List RankedPaper) (x y : RankedPaper),
    y ∈ insertByH x l → y = x ∨ y ∈ l := by
  intro l
  induction l with
  | nil => intro x y h; simpa [insertByH] using h
  | cons z l ih =>
    intro x y h
    unfold insertByH at h
    split_ifs at h with h1
    · rcases List.mem_cons.mp h with h2 | h2
      · right
        rw [h2]
        exact List.mem_cons_self z l
      · rcases ih x y h2 with h3 | h3
        · left; exact h3
        · right; exact List.mem_cons_of_mem z h3
    · rcases List.mem_cons.mp h with h2 | h2
      · left; exact h2
      · right; exact h2

theorem mem_sortByHDesc : ∀ (l : List RankedPaper) (y : RankedPaper),
    y ∈ sortByHDesc l → y ∈ l := by
  intro l
  induction l with
  | nil => intro y h; simp [sortByHDesc] at h
  | cons x l ih =>
    intro y h
    unfold sortByHDesc at h
    rcases mem_insertByH (sortByHDesc l) x y h with h2 | h2
    · rw [h2]; exact List.mem_cons_self x l
    · exact List.mem_cons_of_mem x (ih y h2)

theorem pairwise_insertByH : ∀ (l : List RankedPaper) (x : RankedPaper),
    l.Pairwise (fun a b => b.maxH ≤ a.maxH) →
    (insertByH x l).Pairwise (fun a b => b.maxH ≤ a.maxH) := by
  intro l
  induction l with
  | nil => intro x _; simp [insertByH]
  | cons y l ih =>
    intro x hp
    rcases List.pairwise_cons.mp hp with ⟨hy, hl⟩
    unfold insertByH
    split_ifs with h1
    · refine List.pairwise_cons.mpr ⟨?_, ih x hl⟩
      intro b hb
      rcases mem_insertByH l x b hb with h2 | h2
      · rw [h2]; exact le_of_lt h1
      · exact hy b h2
    · refine List.pairwise_cons.mpr ⟨?_, hp⟩
      intro b hb
      rcases List.mem_cons.mp hb with h2 | h2
      · rw [h2]; exact le_of_not_lt h1
      · exact le_trans (hy b h2) (le_of_not_lt h1)

theorem sorted_sortByHDesc : ∀ (l : List RankedPaper),
    (sortByHDesc l).Pairwise (fun a b => b.maxH ≤ a.maxH) := by
  intro l
  induction l with
  | nil => simp [sortByHDesc]
  | cons x l ih => exact pairwise_insertByH (sortByHDesc l) x ih

theorem filter_insertByH (s : Int) : ∀ (l : List RankedPaper) (x : RankedPaper),
    (insertByH x l).filter (fun rp => decide (rp.maxH = s)) =
      if x.maxH = s then x :: l.filter (fun rp => decide (rp.maxH = s))
      else l.filter (fun rp => decide (rp.maxH = s)) := by
  intro l
  induction l with
  | nil =>
    intro x
    by_cases h1 : x.maxH = s <;> simp [insertByH, List.filter_cons, h1]
  | cons y l ih =>
    intro x
    unfold insertByH
    by_cases h1 : x.maxH < y.maxH
    · rw [if_pos h1]
      by_cases h2 : x.maxH = s
      · have hy : ¬ (y.maxH = s) := by
          intro hys
          rw [h2, hys] at h1
          exact lt_irrefl s h1
        simp [List.filter_cons, ih x, h2, hy]
      · simp [List.filter_cons, ih x, h2]
    · rw [if_neg h1]
      by_cases h2 : x.maxH = s <;> simp [List.filter_cons, h2]

theorem filter_sortByHDesc (s : Int) : ∀ (l : List RankedPaper),
    (sortByHDesc l).filter (fun rp => decide (rp.maxH = s)) =
      l.filter (fun rp => decide (rp.maxH = s)) := by
  intro l
  induction l with
  | nil => rfl
  | cons x l ih =>
    unfold sortByHDesc
    rw [filter_insertByH s (sortByHDesc l) x, List.filter_cons]
    by_cases h1 : x.maxH = s <;> simp [h1, ih]

/-- C4: every paper returned by `rank_valid_papers_by_hindex` carries an
attached h-index at least `minH`; the output has at most `maxP` entries; it is
sorted in descending order of the attached h-index; and for every score value,
the papers carrying it appear as a sublist of the input, i.e. ties keep their
original fetch order (the sort is stable). -/
theorem reputation_ranker_postconditions (authorsOf : List Char → Option (List AuthorRef))
    (hOf : List Char → Option Int) (processed : List (List Char)) (papers : List Paper)
    (minH : Int) (maxP : Nat) :
    (∀ rp ∈ rank_valid_papers_by_hindex authorsOf hOf processed papers minH maxP,
      minH ≤ rp.maxH) ∧
    (rank_valid_papers_by_hindex authorsOf hOf processed papers minH maxP).length ≤ maxP ∧
    (rank_valid_papers_by_hindex authorsOf hOf processed papers minH maxP).Pairwise
      (fun a b => b.maxH ≤ a.maxH) ∧
    ∀ s : Int,
      List.Sublist
        (((rank_valid_papers_by_hindex authorsOf hOf processed papers minH maxP).filter
          (fun rp => decide (rp.maxH = s))).map RankedPaper.paper) papers := by
  refine ⟨?_, ?_, ?_, ?_⟩
  · intro rp hrp
    have h1 : rp ∈ sortByHDesc (validPapers authorsOf hOf processed minH papers) :=
      List.take_subset _ _ hrp
    exact validPapers_score_ge authorsOf hOf processed minH papers rp
      (mem_sortByHDesc _ rp h1)
  · unfold rank_valid_papers_by_hindex
    rw [List.length_take]
    exact min_le_left _ _
  · exact (sorted_sortByHDesc _).sublist (List.take_sublist _ _)
  · intro s
    have h1 : List.Sublist
        ((rank_valid_papers_by_hindex authorsOf hOf processed papers minH maxP).filter
          (fun rp => decide (rp.maxH = s)))
        ((sortByHDesc (validPapers authorsOf hOf processed minH papers)).filter
          (fun rp => decide (rp.maxH = s))) :=
      (List.take_sublist _ _).filter _
    rw [filter_sortByHDesc] at h1
    have h2 := (h1.trans (List.filter_sublist _)).map RankedPaper.paper
    exact h2.trans (validPapers_map_sublist authorsOf hOf processed minH papers)

/-- C4 witness: in a one-paper run with a qualifying author of h-index 12 and
threshold 10, the returned paper's attached score satisfies the bound. -/
theorem reputation_ranker_postconditions_witness :
    (10 : Int) ≤ (RankedPaper.mk ⟨some ("t1".toList), some ("d1".toList)⟩ 12).maxH :=
  (reputation_ranker_postconditions (fun _ => some [⟨some ("a1".toList)⟩]) (fun _ => some 12)
      [] [⟨some ("t1".toList), some ("d1".toList)⟩] 10 5).1
    ⟨⟨some ("t1".toList), some ("d1".toList)⟩, 12⟩ (by decide)

theorem findQualifyingH_cons (hOf : List Char → Option Int) (minH : Int)
    (a : AuthorRef) (rest : List AuthorRef) :
    findQualifyingH hOf minH (a :: rest) =
      if truthyStr a.authorId then
        match hOf (a.authorId.getD []) with
        | some h => if minH ≤ h then some h else findQualifyingH hOf minH rest
        | none => findQualifyingH hOf minH rest
      else findQualifyingH hOf minH rest := rfl

theorem findQualifyingH_skip (hOf : List Char → Option Int) (minH : Int) :
    ∀ (pre rest : List AuthorRef),
      (∀ b ∈ pre, truthyStr b.authorId = false ∨ hOf (b.authorId.getD []) = none ∨
        ∃ h2, hOf (b.authorId.getD []) = some h2 ∧ h2 < minH) →
      findQualifyingH hOf minH (pre ++ rest) = findQualifyingH hOf minH rest := by
  intro pre
  induction pre with
  | nil => intro rest _; rfl
  | cons b pre ih =>
    intro rest hpre
    have hb := hpre b (List.mem_cons_self b pre)
    have htail : ∀ b2 ∈ pre, truthyStr b2.authorId = false ∨
        hOf (b2.authorId.getD []) = none ∨
        ∃ h2, hOf (b2.authorId.getD []) = some h2 ∧ h2 < minH :=
      fun b2 hb2 => hpre b2 (List.mem_cons_of_mem b hb2)
    rw [List.cons_append, findQualifyingH_cons]
    rcases hb with h | h | ⟨h2, hh2, hlt⟩
    · rw [h, if_neg Bool.false_ne_true]
      exact ih rest htail
    · by_cases h1 : truthyStr b.authorId = true
      · rw [if_pos h1]
        simp only [h]
        exact ih rest htail
      · rw [if_neg h1]
        exact ih rest htail
    · by_cases h1 : truthyStr b.authorId = true
      · rw [if_pos h1]
        simp only [hh2]
        rw [if_neg (not_le_of_lt hlt)]
        exact ih rest htail
      · rw [if_neg h1]
        exact ih rest htail

theorem validPapers_cons (authorsOf : List Char → Option (List AuthorRef))
    (hOf : List Char → Option Int) (processed : List (List Char)) (minH : Int)
    (p : Paper) (rest : List Paper) :
    validPapers authorsOf hOf processed minH (p :: rest) =
      if truthyStr p.title = false ∨ truthyStr p.doi = false ∨
          p.title.getD [] ∈ processed then
        validPapers authorsOf hOf processed minH rest
      else
        match authorsOf (p.doi.getD []) with
        | none => validPapers authorsOf hOf processed minH rest
        | some authors =>
          if authors.isEmpty then validPapers authorsOf hOf processed minH rest
          else
            match findQualifyingH hOf minH authors with
            | some h => ⟨p, h⟩ :: validPapers authorsOf hOf processed minH rest
            | none => validPapers authorsOf hOf processed minH rest := rfl

/-- C8: papers lacking a truthy title or DOI or already in the ledger are
dropped identically for every oracle, i.e. before any external lookup; and for
a candidate whose author lookup returns a non-empty list, if every author
before position `k` fails to qualify (missing id, missing h-index, or h-index
below threshold) and the author at position `k` has h-index `h ≥ minH`, the
paper is kept with exactly `h` attached, for every tail of further authors —
no later author's score can influence the result (short-circuit). -/
theorem ranker_per_paper (authorsOf : List Char → Option (List AuthorRef))
    (hOf : List Char → Option Int) (processed : List (List Char)) (minH : Int) :
    (∀ (p : Paper) (rest : List Paper),
      (truthyStr p.title = false ∨ truthyStr p.doi = false ∨ p.title.getD [] ∈ processed) →
      validPapers authorsOf hOf processed minH (p :: rest) =
        validPapers authorsOf hOf processed minH rest) ∧
    (∀ (p : Paper) (rest : List Paper) (pre post : List AuthorRef) (a : AuthorRef) (h : Int),
      truthyStr p.title = true → truthyStr p.doi = true → p.title.getD [] ∉ processed →
      authorsOf (p.doi.getD []) = some (pre ++ a :: post) →
      (∀ b ∈ pre, truthyStr b.authorId = false ∨ hOf (b.authorId.getD []) = none ∨
        ∃ h2, hOf (b.authorId.getD []) = some h2 ∧ h2 < minH) →
      truthyStr a.authorId = true → hOf (a.authorId.getD []) = some h → minH ≤ h →
      validPapers authorsOf hOf processed minH (p :: rest) =
        ⟨p, h⟩ :: validPapers authorsOf hOf processed minH rest) := by
  constructor
  · intro p rest hskip
    rw [validPapers_cons, if_pos hskip]
  · intro p rest pre post a h htitle hdoi hproc hauth hpre haid hh hmin
    rw [validPapers_cons, if_neg (by simp [htitle, hdoi, hproc])]
    simp only [hauth]
    rw [if_neg (by simp)]
    rw [findQualifyingH_skip hOf minH pre (a :: post) hpre, findQualifyingH_cons,
      if_pos haid]
    simp only [hh]
    rw [if_pos hmin]

/-- C8 witness: a concrete paper whose first author lacks an id and whose
second author qualifies with h-index 12 is kept with score 12, independently of
the third author. -/
theorem ranker_per_paper_witness :
    validPapers (fun _ => some [⟨none⟩, ⟨some ("a1".toList)⟩, ⟨some ("a2".toList)⟩])
        (fun i => if i = ("a1".toList) then some 12 else some 3) [] 10
        [⟨some ("t1".toList), some ("d1".toList)⟩] =
      [⟨⟨some ("t1".toList), some ("d1".toList)⟩, 12⟩] :=
  (ranker_per_paper (fun _ => some [⟨none⟩, ⟨some ("a1".toList)⟩, ⟨some ("a2".toList)⟩])
      (fun i => if i = ("a1".toList) then some 12 else some 3) [] 10).2
    ⟨some ("t1".toList), some ("d1".toList)⟩ [] [⟨none⟩] [⟨some ("a2".toList)⟩]
    ⟨some ("a1".toList)⟩ 12 rfl rfl (by decide) rfl
    (by
      intro b hb
      simp only [List.mem_singleton] at hb
      subst hb
      left
      rfl)
    rfl (by decide) (by decide)

theorem bulletLines_enumFrom : ∀ (l : List (List Char)) (k : Nat),
    bulletLines k l = ((List.enumFrom k l).filter (fun p => !p.2.isEmpty)).map
      (fun p => emojis.getD (p.1 % 6) [] ++ ' ' :: pyStrip p.2) := by
  intro l
  induction l with
  | nil => intro k; rfl
  | cons s rest ih =>
    intro k
    unfold bulletLines
    rw [List.enumFrom_cons, List.filter_cons]
    by_cases hs : s.isEmpty
    · simp only [hs, Bool.not_true, Bool.false_eq_true, if_false, if_true]
      exact ih (k + 1)
    · simp only [hs, Bool.not_false, if_true, Bool.false_eq_true, if_false, List.map_cons]
      rw [ih (k + 1)]

/-- C5: on `"One. Two! Three?"` the bullet formatter yields exactly three
bullet lines, with the first three distinct markers of the fixed six-glyph
cycle in index order; and in general each non-empty sentence at pre-filter
position `i` becomes one line made of marker `i mod 6` followed by the trimmed
sentence, while empty sentences produce no line. -/
theorem bullet_formatter (text : List Char) :
    (bulletLines 0 (splitBullets ("One. Two! Three?".toList)) =
        [("- 📌 One.".toList), ("- 🔹 Two!".toList), ("- ➤ Three?".toList)]) ∧
      bulletLines 0 (splitBullets text) =
        ((splitBullets text).enum.filter (fun p => !p.2.isEmpty)).map
          (fun p => emojis.getD (p.1 % 6) [] ++ ' ' :: pyStrip p.2) := by
  constructor
  · decide
  · rw [bulletLines_enumFrom (splitBullets text) 0]
    rfl

/-- C2: on the crafted abstract, `format_abstract_paragraphs` emits, in order
(ignoring the blank spacer lines), the bold Background heading then its
sentence remainder, the bold Methods heading then its remainder, the bold
Results heading then exactly the two bullet lines for the two Results
sentences with distinct markers, and the bold Conclusions heading then its
remainder. -/
theorem abstract_structurer_roundtrip :
    (format_abstract_lines
        (("Background: X happened. Methods: Y was done. " ++
          "Results: A occurred. B occurred. Conclusions: Z follows.").toList)).filter
        (fun l => !l.isEmpty) =
      [("**Background:**".toList), ("X happened.".toList), ("**Methods:**".toList),
        ("Y was done.".toList), ("**Results:**".toList), ("- 📌 A occurred.".toList),
        ("- 🔹 B occurred.".toList), ("**Conclusions:**".toList),
        ("Z follows.".toList)] := by
  decide

theorem collectResults_le (sents : List (List Char)) :
    ∀ (fuel i : Nat), i ≤ (collectResults sents fuel i).2 := by
  intro fuel
  induction fuel with
  | zero => intro i; exact Nat.le_refl i
  | succ fuel ih =>
    intro i
    unfold collectResults
    by_cases h1 : i < sents.length
    · rw [if_pos h1]
      dsimp only
      by_cases h2 : (labelMatch (sents.getD i [])).isSome
      · rw [if_pos h2]
      · rw [if_neg h2]
        exact Nat.le_trans (Nat.le_succ i) (ih (i + 1))
    · rw [if_neg h1]

theorem formatLoop_isSome (sents : List (List Char)) :
    ∀ (fuel i : Nat), sents.length - i ≤ fuel → (formatLoop sents fuel i).isSome = true := by
  intro fuel
  induction fuel with
  | zero =>
    intro i hi
    unfold formatLoop
    rw [if_neg (by omega)]
    rfl
  | succ fuel ih =>
    intro i hi
    by_cases hlt : i < sents.length
    · unfold formatLoop
      rw [if_pos hlt]
      dsimp only
      rcases hm : labelRest (sents.getD i []) with _ | ⟨lab, g4⟩
      · dsimp only
        obtain ⟨tl, htl⟩ := Option.isSome_iff_exists.mp (ih (i + 1) (by omega))
        rw [htl]
        rfl
      · dsimp only
        by_cases hres : List.map Char.toLower lab = "results".toList
        · rw [if_pos hres]
          have hc := collectResults_le sents fuel (i + 1)
          obtain ⟨tl, htl⟩ := Option.isSome_iff_exists.mp
            (ih (collectResults sents fuel (i + 1)).2 (by omega))
          rw [htl]
          rfl
        · rw [if_neg hres]
          obtain ⟨tl, htl⟩ := Option.isSome_iff_exists.mp (ih (i + 1) (by omega))
          rw [htl]
          rfl
    · unfold formatLoop
      rw [if_neg hlt]
      rfl

/-- C10: for every input, the fueled embedding of the sentence-scan loop of
`format_abstract_paragraphs` completes within fuel equal to the number of
sentences — each iteration strictly advances the index, including the Results
branch whose inner collection loop only moves the index forward — so the
function terminates and returns a value on every input. -/
theorem structurer_totality (text : List Char) :
    (formatLoop (splitSentences text) (splitSentences text).length 0).isSome = true :=
  formatLoop_isSome (splitSentences text) (splitSentences text).length 0 (by omega)

end MedrxivBot
